import Mathlib

/-!
Verification development for the stereo-alignment / crosstalk scripts
(CV/XTalk-analysis.py, CV/correctDisp.py).

Shallow embedding conventions:
* numpy arrays become lists of lists; a color pixel is a triple of
  rationals in OpenCV BGR channel order, so component 1 is blue,
  component 2 is green, component 3 is red;
* code whose arithmetic stays rational (channel ratios, the disparity
  filter, integer warping grids) is embedded over ℚ, so every statement
  about it is decidable on concrete inputs;
* code using square roots or non-integer powers (sRGB linearization,
  the RMS objective) is embedded over ℝ.
-/

/-- Helper: `getD` commutes with `List.map` when the map preserves the
default value. -/
theorem getD_map_of_default {α β : Type} (f : α → β) (l : List α) (i : ℕ)
    (da : α) (db : β) (h : f da = db) :
    (l.map f).getD i db = f (l.getD i da) := by
  induction l generalizing i with
  | nil => simpa using h.symm
  | cons a t ih =>
    cases i with
    | zero => simp
    | succ n => simpa using ih n

/-- A BGR pixel (OpenCV channel order): component 1 is channel 0 (blue),
component 2 is channel 1 (green), component 3 is channel 2 (red). -/
abbrev Pixel := ℚ × ℚ × ℚ

/-- XTalk-analysis.py, `compute_crosstalk` (lines 52-60): the left map is
channel 0 over (channel 2 + 1e-6) of the left image, the right map is
channel 2 over (channel 0 + 1e-6) of the right image, elementwise. -/
def compute_crosstalk (image_left image_right : List (List Pixel)) :
    List (List ℚ) × List (List ℚ) :=
  (image_left.map (List.map fun p => p.1 / (p.2.2 + 1/1000000)),
   image_right.map (List.map fun p => p.2.2 / (p.1 + 1/1000000)))

/-- Elementwise description of `compute_crosstalk` (shared helper). -/
theorem compute_crosstalk_getD (L R : List (List Pixel)) (i j : ℕ) :
    (((compute_crosstalk L R).1.getD i []).getD j 0 =
      ((L.getD i []).getD j ((0:ℚ),0,0)).1 /
        (((L.getD i []).getD j ((0:ℚ),0,0)).2.2 + 1/1000000)) ∧
    (((compute_crosstalk L R).2.getD i []).getD j 0 =
      ((R.getD i []).getD j ((0:ℚ),0,0)).2.2 /
        (((R.getD i []).getD j ((0:ℚ),0,0)).1 + 1/1000000)) := by
  constructor
  · show ((L.map (List.map fun p : Pixel => p.1 / (p.2.2 + 1/1000000))).getD i
        []).getD j 0 = _
    rw [getD_map_of_default _ L i [] [] rfl,
        getD_map_of_default _ _ j ((0:ℚ),0,0) 0 (by norm_num)]
  · show ((R.map (List.map fun p : Pixel => p.2.2 / (p.1 + 1/1000000))).getD i
        []).getD j 0 = _
    rw [getD_map_of_default _ R i [] [] rfl,
        getD_map_of_default _ _ j ((0:ℚ),0,0) 0 (by norm_num)]

/-- C1: for every pair of BGR images, the left crosstalk map at every pixel
equals the left image's blue channel divided by (its red channel + 1e-6),
and the right crosstalk map equals the right image's red channel divided by
(its blue channel + 1e-6). -/
theorem crosstalk_channel_ratio (L R : List (List Pixel)) (i j : ℕ) :
    (((compute_crosstalk L R).1.getD i []).getD j 0 =
      ((L.getD i []).getD j ((0:ℚ),0,0)).1 /
        (((L.getD i []).getD j ((0:ℚ),0,0)).2.2 + 1/1000000)) ∧
    (((compute_crosstalk L R).2.getD i []).getD j 0 =
      ((R.getD i []).getD j ((0:ℚ),0,0)).2.2 /
        (((R.getD i []).getD j ((0:ℚ),0,0)).1 + 1/1000000)) :=
  compute_crosstalk_getD L R i j

/-- All-gray BGR image (R = G = B everywhere) built from a single-channel
gray grid. -/
def grayImage (g : List (List ℚ)) : List (List Pixel) :=
  g.map (List.map fun v => (v, v, v))

/-- Elementwise description of `grayImage` (shared helper). -/
theorem grayImage_getD (g : List (List ℚ)) (i j : ℕ) :
    ((grayImage g).getD i []).getD j ((0:ℚ),0,0) =
      ((g.getD i []).getD j 0, (g.getD i []).getD j 0,
        (g.getD i []).getD j 0) := by
  show ((g.map (List.map fun v : ℚ => (v, v, v))).getD i []).getD j
      ((0:ℚ),0,0) = _
  rw [getD_map_of_default _ g i [] [] rfl,
      getD_map_of_default _ _ j (0:ℚ) ((0:ℚ),0,0) rfl]

/-- C4 counterexample: on two identical all-gray images whose gray value is
0, both crosstalk maps are 0 everywhere, not 1.0; the deviation from 1.0 at
that pixel is exactly 1. -/
theorem crosstalk_black_gray_not_one :
    compute_crosstalk (grayImage [[0]]) (grayImage [[0]]) = ([[0]], [[0]]) ∧
    |((compute_crosstalk (grayImage [[0]])
        (grayImage [[0]])).1.getD 0 []).getD 0 0 - 1| = 1 := by
  constructor
  · simp [compute_crosstalk, grayImage]
  · simp [compute_crosstalk, grayImage]

/-- C4 (amended): on two identical all-gray images, each crosstalk map at a
pixel with gray value v equals v / (v + 1e-6); when 0 < v this is within
1e-6 / v of 1.0, while at v = 0 it equals 0. -/
theorem crosstalk_gray_value (g : List (List ℚ)) (i j : ℕ) :
    (((compute_crosstalk (grayImage g) (grayImage g)).1.getD i []).getD j 0 =
        (g.getD i []).getD j 0 / ((g.getD i []).getD j 0 + 1/1000000)) ∧
    (((compute_crosstalk (grayImage g) (grayImage g)).2.getD i []).getD j 0 =
        (g.getD i []).getD j 0 / ((g.getD i []).getD j 0 + 1/1000000)) ∧
    (0 < (g.getD i []).getD j 0 →
      |(g.getD i []).getD j 0 / ((g.getD i []).getD j 0 + 1/1000000) - 1| <
        (1/1000000) / (g.getD i []).getD j 0) := by
  refine ⟨?_, ?_, ?_⟩
  · rw [(compute_crosstalk_getD (grayImage g) (grayImage g) i j).1,
        grayImage_getD]
  · rw [(compute_crosstalk_getD (grayImage g) (grayImage g) i j).2,
        grayImage_getD]
  · intro hv
    set v : ℚ := (g.getD i []).getD j 0 with hvdef
    have hve : 0 < v + 1/1000000 := by positivity
    have h1 : v / (v + 1/1000000) - 1 = -((1/1000000) / (v + 1/1000000)) := by
      field_simp
    rw [h1, abs_neg, abs_of_pos (by positivity)]
    have : (1:ℚ)/1000000 / (v + 1/1000000) < 1/1000000 / v := by
      apply div_lt_div_of_pos_left (by norm_num) hv
      linarith
    exact this

/-- C4 witness: at gray value 1 the map value is 1/(1 + 1e-6), within 1e-6
of 1.0. -/
theorem crosstalk_gray_value_witness :
    (0:ℚ) < 1 ∧
    ((compute_crosstalk (grayImage [[1]]) (grayImage [[1]])).1.getD 0
        []).getD 0 0 = 1 / (1 + 1/1000000) ∧
    |(1:ℚ) / (1 + 1/1000000) - 1| < (1/1000000) / 1 := by
  have h := crosstalk_gray_value [[1]] 0 0
  exact ⟨by norm_num, h.1, h.2.2 (by norm_num)⟩

/-- correctDisp.py lines 86-96: keypoints are (x, y) pairs, a match is a
(queryIdx, trainIdx) pair; a match is kept exactly when the absolute
vertical disparity between its two keypoints is at most
0.03 * image_height. -/
def filtered_matches (keypoints_left keypoints_right : List (ℚ × ℚ))
    (ms : List (ℕ × ℕ)) (image_height : ℚ) : List (ℕ × ℕ) :=
  ms.filter fun m =>
    decide (|(keypoints_left.getD m.1 (0,0)).2 -
      (keypoints_right.getD m.2 (0,0)).2| ≤ 3/100 * image_height)

/-- C7: a match survives the vertical-disparity post-filter iff the absolute
difference of its keypoints' y coordinates is at most 0.03 times the image
height; matches strictly above the bound are dropped. -/
theorem filtered_matches_mem_iff (kl kr : List (ℚ × ℚ)) (ms : List (ℕ × ℕ))
    (image_height : ℚ) (m : ℕ × ℕ) :
    m ∈ filtered_matches kl kr ms image_height ↔
      m ∈ ms ∧ |(kl.getD m.1 (0,0)).2 - (kr.getD m.2 (0,0)).2| ≤
        3/100 * image_height := by
  simp [filtered_matches, List.mem_filter]

/-- XTalk-analysis.py, `sRGB_to_linearRGB` (lines 44-50), per-sample branch
applied to a value already divided by 255: c/12.92 when c ≤ 0.04045, else
((c + 0.055)/1.055)^2.4. -/
noncomputable def toLinearSample (c : ℝ) : ℝ :=
  if c ≤ 0.04045 then c / 12.92 else ((c + 0.055) / 1.055) ^ (2.4 : ℝ)

/-- XTalk-analysis.py, `sRGB_to_linearRGB` on a raw image: every channel of
every pixel is divided by 255 and passed through the branch. -/
noncomputable def sRGB_to_linearRGB (image : List (List (ℝ × ℝ × ℝ))) :
    List (List (ℝ × ℝ × ℝ)) :=
  image.map (List.map fun p =>
    (toLinearSample (p.1 / 255), toLinearSample (p.2.1 / 255),
     toLinearSample (p.2.2 / 255)))

/-- C3: the sRGB-to-linear conversion acts elementwise and independently on
every channel of every pixel, sending a raw sample with normalized value c
to c / 12.92 when c ≤ 0.04045 and to ((c + 0.055)/1.055)^2.4 otherwise. -/
theorem sRGB_to_linear_elementwise (image : List (List (ℝ × ℝ × ℝ)))
    (i j : ℕ) :
    ((sRGB_to_linearRGB image).getD i []).getD j ((0:ℝ),0,0) =
      (if ((image.getD i []).getD j ((0:ℝ),0,0)).1 / 255 ≤ 0.04045 then
         ((image.getD i []).getD j ((0:ℝ),0,0)).1 / 255 / 12.92
       else ((((image.getD i []).getD j ((0:ℝ),0,0)).1 / 255 + 0.055) /
         1.055) ^ (2.4:ℝ),
       if ((image.getD i []).getD j ((0:ℝ),0,0)).2.1 / 255 ≤ 0.04045 then
         ((image.getD i []).getD j ((0:ℝ),0,0)).2.1 / 255 / 12.92
       else ((((image.getD i []).getD j ((0:ℝ),0,0)).2.1 / 255 + 0.055) /
         1.055) ^ (2.4:ℝ),
       if ((image.getD i []).getD j ((0:ℝ),0,0)).2.2 / 255 ≤ 0.04045 then
         ((image.getD i []).getD j ((0:ℝ),0,0)).2.2 / 255 / 12.92
       else ((((image.getD i []).getD j ((0:ℝ),0,0)).2.2 / 255 + 0.055) /
         1.055) ^ (2.4:ℝ)) := by
  show ((image.map (List.map fun p : ℝ × ℝ × ℝ =>
      (toLinearSample (p.1 / 255), toLinearSample (p.2.1 / 255),
       toLinearSample (p.2.2 / 255)))).getD i []).getD j ((0:ℝ),0,0) = _
  rw [getD_map_of_default _ image i [] [] rfl,
      getD_map_of_default _ _ j ((0:ℝ),0,0) ((0:ℝ),0,0)
        (by norm_num [toLinearSample])]
  rfl

/-- At the 0.04045 knee the power branch stays strictly above the linear
branch value, so no downward jump occurs there (shared helper; proved by
comparing 5th and 12th powers exactly). -/
theorem srgb_knee :
    (0.04045:ℝ) / 12.92 < ((0.04045 + 0.055) / 1.055) ^ (2.4:ℝ) := by
  have hx : (0:ℝ) < (0.04045 + 0.055) / 1.055 := by norm_num
  have h12 : ((((0.04045:ℝ) + 0.055) / 1.055) ^ (2.4:ℝ)) ^ (5:ℕ) =
      (((0.04045:ℝ) + 0.055) / 1.055) ^ (12:ℕ) := by
    rw [← Real.rpow_natCast ((((0.04045:ℝ) + 0.055) / 1.055) ^ (2.4:ℝ)) 5,
        ← Real.rpow_mul hx.le,
        show (2.4:ℝ) * ((5:ℕ):ℝ) = ((12:ℕ):ℝ) by norm_num,
        Real.rpow_natCast]
  have hkey : ((0.04045:ℝ) / 12.92) ^ (5:ℕ) <
      (((0.04045:ℝ) + 0.055) / 1.055) ^ (12:ℕ) := by norm_num
  refine lt_of_pow_lt_pow_left₀ 5 (Real.rpow_nonneg hx.le _) ?_
  rw [h12]
  exact hkey

/-- The per-sample conversion is monotone on all of ℝ (shared helper). -/
theorem toLinearSample_mono : Monotone toLinearSample := by
  intro c1 c2 h
  unfold toLinearSample
  by_cases h1 : c1 ≤ 0.04045 <;> by_cases h2 : c2 ≤ 0.04045
  · rw [if_pos h1, if_pos h2]
    exact div_le_div_of_nonneg_right h (by norm_num)
  · rw [if_pos h1, if_neg h2]
    push_neg at h2
    refine le_of_lt ?_
    calc c1 / 12.92 ≤ 0.04045 / 12.92 :=
          div_le_div_of_nonneg_right h1 (by norm_num)
      _ < ((0.04045 + 0.055) / 1.055) ^ (2.4:ℝ) := srgb_knee
      _ ≤ ((c2 + 0.055) / 1.055) ^ (2.4:ℝ) :=
          Real.rpow_le_rpow (by norm_num)
            (div_le_div_of_nonneg_right (by linarith) (by norm_num))
            (by norm_num)
  · exact absurd (h.trans h2) h1
  · rw [if_neg h1, if_neg h2]
    push_neg at h1
    exact Real.rpow_le_rpow (div_nonneg (by linarith) (by norm_num))
      (div_le_div_of_nonneg_right (by linarith) (by norm_num)) (by norm_num)

/-- C8: on [0,1] the conversion is monotonically non-decreasing and maps
the endpoints exactly: toLinear(0) = 0 and toLinear(1) = 1. -/
theorem toLinear_monotone_endpoints :
    (∀ c1 c2 : ℝ, 0 ≤ c1 → c1 ≤ c2 → c2 ≤ 1 →
      toLinearSample c1 ≤ toLinearSample c2) ∧
    toLinearSample 0 = 0 ∧ toLinearSample 1 = 1 := by
  refine ⟨fun c1 c2 _ h _ => toLinearSample_mono h, ?_, ?_⟩
  · simp only [toLinearSample]
    norm_num
  · simp only [toLinearSample]
    rw [if_neg (by norm_num),
        show ((1:ℝ) + 0.055) / 1.055 = 1 by norm_num, Real.one_rpow]

/-- C8 witness: 0 ≤ 0.04 ≤ 0.05 ≤ 1 and the conversion is non-decreasing
across the branch threshold between them. -/
theorem toLinear_monotone_endpoints_witness :
    ((0:ℝ) ≤ 0.04 ∧ (0.04:ℝ) ≤ 0.05 ∧ (0.05:ℝ) ≤ 1) ∧
    toLinearSample 0.04 ≤ toLinearSample 0.05 :=
  ⟨⟨by norm_num, by norm_num, by norm_num⟩,
   toLinear_monotone_endpoints.1 0.04 0.05 (by norm_num) (by norm_num)
     (by norm_num)⟩

/-- correctDisp.py, `compute_rms_disparity` (lines 118-127): scale the
right points by `scaling` (x and y), add `y_translation` to y, and return
the square root of the mean squared vertical disparity against the left
points. -/
noncomputable def compute_rms_disparity (y_translation scaling : ℝ)
    (left_points right_points : List (ℝ × ℝ)) : ℝ :=
  let adjusted_right_points := right_points.map fun p =>
    (p.1 * scaling, p.2 * scaling + y_translation)
  let vertical_disparity := (left_points.zip adjusted_right_points).map
    fun q => q.1.2 - q.2.2
  Real.sqrt ((vertical_disparity.map fun d => d ^ 2).sum /
    (vertical_disparity.length : ℝ))

/-- Shared helper: closed form of the objective over the match set. -/
theorem compute_rms_disparity_eq (y_translation scaling : ℝ)
    (lp rp : List (ℝ × ℝ)) :
    compute_rms_disparity y_translation scaling lp rp =
      Real.sqrt ((((lp.zip rp).map fun m =>
          (m.1.2 - (m.2.2 * scaling + y_translation)) ^ 2).sum) /
        ((lp.zip rp).length : ℝ)) := by
  unfold compute_rms_disparity
  simp only [List.zip_map_right, List.map_map, Function.comp_def,
    List.length_map, Prod.map_snd, Prod.map_fst, id_eq]

/-- Error vocabulary from the spec's error-handling design; the script
itself defines no failure values, and this type exists only so that claims
about signalling them can be stated. -/
inductive AlignError
  | insufficientCorrespondences
  | rectificationFailed
deriving DecidableEq

/-- The scale + vertical-shift transform produced by the estimator. -/
structure ScaledVerticalShift where
  scale : ℝ
  dy : ℝ

/-- The `method` argument passed to the scipy minimizer at correctDisp.py
line 134. -/
inductive MinimizeMethod
  | powell
deriving DecidableEq

def scaleShift_method : MinimizeMethod := MinimizeMethod.powell

/-- correctDisp.py lines 129-138: the script calls the scipy minimizer
(abstracted as `powell`, scipy's derivative-free Powell direction search)
on the RMS objective with initial guess [0, 1.0] (y_translation = 0,
scaling = 1) and unconditionally builds the transform from the result;
there is no match-count check and no failure path. -/
noncomputable def scaleShiftEstimate
    (powell : ((ℝ × ℝ) → ℝ) → (ℝ × ℝ) → ℝ × ℝ)
    (left_points right_points : List (ℝ × ℝ)) :
    Except AlignError ScaledVerticalShift :=
  let result := powell
    (fun params => compute_rms_disparity params.1 params.2
      left_points right_points) (0, 1.0)
  Except.ok ⟨result.2, result.1⟩

/-- C5: the estimator's objective equals the root mean square of the
vertical residuals leftY − (rightY·scale + dy) over the matches, and the
minimization (Powell method) is seeded at scale = 1, dy = 0. -/
theorem rms_objective_and_seed :
    (∀ (dy scale : ℝ) (lp rp : List (ℝ × ℝ)),
      compute_rms_disparity dy scale lp rp =
        Real.sqrt ((((lp.zip rp).map fun m =>
            (m.1.2 - (m.2.2 * scale + dy)) ^ 2).sum) /
          ((lp.zip rp).length : ℝ))) ∧
    (∀ (powell : ((ℝ × ℝ) → ℝ) → (ℝ × ℝ) → ℝ × ℝ)
        (lp rp : List (ℝ × ℝ)),
      scaleShiftEstimate powell lp rp =
        Except.ok ⟨(powell (fun params =>
            compute_rms_disparity params.1 params.2 lp rp) (0, 1.0)).2,
          (powell (fun params =>
            compute_rms_disparity params.1 params.2 lp rp) (0, 1.0)).1⟩) ∧
    scaleShift_method = MinimizeMethod.powell :=
  ⟨fun dy scale lp rp => compute_rms_disparity_eq dy scale lp rp,
   fun _ _ _ => rfl, rfl⟩

/-- Modelled from the spec's words for comparison: the RMS of the raw
vertical disparities leftY − rightY of the unmodified correspondences. -/
noncomputable def rawVerticalRMS (lp rp : List (ℝ × ℝ)) : ℝ :=
  Real.sqrt ((((lp.zip rp).map fun m => (m.1.2 - m.2.2) ^ 2).sum) /
    ((lp.zip rp).length : ℝ))

/-- C6: at the identity parameters scale = 1, dy = 0 the objective equals
the RMS of the raw vertical disparities of the unmodified
correspondences. -/
theorem rms_identity_params_raw (lp rp : List (ℝ × ℝ)) (h : lp ≠ []) :
    compute_rms_disparity 0 1 lp rp = rawVerticalRMS lp rp := by
  rw [compute_rms_disparity_eq]
  simp only [rawVerticalRMS, mul_one, add_zero]

/-- C6 witness: a concrete one-match correspondence set. -/
theorem rms_identity_params_raw_witness :
    ([((0:ℝ),3)] ≠ ([] : List (ℝ × ℝ))) ∧
    compute_rms_disparity 0 1 [((0:ℝ),3)] [((1:ℝ),1)] =
      rawVerticalRMS [((0:ℝ),3)] [((1:ℝ),1)] :=
  ⟨by simp, rms_identity_params_raw _ _ (by simp)⟩

/-- C2 (amended): the script performs no minimum-match-count check and the
estimation never signals any failure value: for every minimizer and every
list of correspondences (including 3 or fewer matches) the result is
`Except.ok`, never `Except.error`. -/
theorem scaleShift_never_signals_insufficient
    (powell : ((ℝ × ℝ) → ℝ) → (ℝ × ℝ) → ℝ × ℝ)
    (lp rp : List (ℝ × ℝ)) (e : AlignError) :
    scaleShiftEstimate powell lp rp ≠ Except.error e := by
  simp [scaleShiftEstimate]

/-- Left keypoints of the filtered matches, cast to ℝ (correctDisp.py
line 115). -/
noncomputable def left_points_of (kl : List (ℚ × ℚ))
    (fm : List (ℕ × ℕ)) : List (ℝ × ℝ) :=
  fm.map fun m => (((kl.getD m.1 (0,0)).1 : ℝ), ((kl.getD m.1 (0,0)).2 : ℝ))

/-- Right keypoints of the filtered matches, cast to ℝ (correctDisp.py
line 116). -/
noncomputable def right_points_of (kr : List (ℚ × ℚ))
    (fm : List (ℕ × ℕ)) : List (ℝ × ℝ) :=
  fm.map fun m => (((kr.getD m.2 (0,0)).1 : ℝ), ((kr.getD m.2 (0,0)).2 : ℝ))

/-- C2 counterexample: a concrete run in which exactly 3 matches survive
the vertical-disparity filter and the scale+shift estimation still
produces a transform (Except.ok), not the InsufficientCorrespondences
failure. -/
theorem scaleShift_three_matches_no_failure :
    (filtered_matches [(0,0),(1,10),(2,20)] [(0,1),(1,11),(2,21)]
        [(0,0),(1,1),(2,2)] 100).length = 3 ∧
    scaleShiftEstimate (fun _ x0 => x0)
        (left_points_of [(0,0),(1,10),(2,20)]
          (filtered_matches [(0,0),(1,10),(2,20)] [(0,1),(1,11),(2,21)]
            [(0,0),(1,1),(2,2)] 100))
        (right_points_of [(0,1),(1,11),(2,21)]
          (filtered_matches [(0,0),(1,10),(2,20)] [(0,1),(1,11),(2,21)]
            [(0,0),(1,1),(2,2)] 100)) =
      Except.ok ⟨1.0, 0⟩ ∧
    scaleShiftEstimate (fun _ x0 => x0)
        (left_points_of [(0,0),(1,10),(2,20)]
          (filtered_matches [(0,0),(1,10),(2,20)] [(0,1),(1,11),(2,21)]
            [(0,0),(1,1),(2,2)] 100))
        (right_points_of [(0,1),(1,11),(2,21)]
          (filtered_matches [(0,0),(1,10),(2,20)] [(0,1),(1,11),(2,21)]
            [(0,0),(1,1),(2,2)] 100)) ≠
      Except.error AlignError.insufficientCorrespondences := by
  refine ⟨by norm_num [filtered_matches, List.filter], rfl, ?_⟩
  simp [scaleShiftEstimate]

/-- First index of the minimum of a rational list (np.argmin). -/
def argmin : List ℚ → ℕ
  | [] => 0
  | [_] => 0
  | a :: b :: t =>
    if a ≤ (b :: t).getD (argmin (b :: t)) 0 then 0 else argmin (b :: t) + 1

/-- First index of the maximum of a rational list (np.argmax). -/
def argmax : List ℚ → ℕ
  | [] => 0
  | [_] => 0
  | a :: b :: t =>
    if (b :: t).getD (argmax (b :: t)) 0 ≤ a then 0 else argmax (b :: t) + 1

theorem argmin_lt_length : ∀ (l : List ℚ), l ≠ [] → argmin l < l.length
  | [] => by simp
  | [_] => by simp [argmin]
  | a :: b :: t => by
    intro _
    simp only [argmin]
    split
    · simp
    · have := argmin_lt_length (b :: t) (by simp)
      simpa [Nat.succ_lt_succ_iff] using this

theorem argmax_lt_length : ∀ (l : List ℚ), l ≠ [] → argmax l < l.length
  | [] => by simp
  | [_] => by simp [argmax]
  | a :: b :: t => by
    intro _
    simp only [argmax]
    split
    · simp
    · have := argmax_lt_length (b :: t) (by simp)
      simpa [Nat.succ_lt_succ_iff] using this

theorem argmin_getD_le :
    ∀ (l : List ℚ) (j : ℕ), j < l.length → l.getD (argmin l) 0 ≤ l.getD j 0
  | [] => by simp
  | [a] => by
    intro j hj
    have : j = 0 := by simpa using Nat.lt_one_iff.mp (by simpa using hj)
    subst this
    simp [argmin]
  | a :: b :: t => by
    intro j hj
    simp only [argmin]
    split
    case isTrue h =>
      cases j with
      | zero => simp
      | succ k =>
        have hk : k < (b :: t).length := by simpa using hj
        have ih := argmin_getD_le (b :: t) k hk
        simp only [List.getD_cons_zero, List.getD_cons_succ]
        exact le_trans h ih
    case isFalse h =>
      push_neg at h
      cases j with
      | zero =>
        simp only [List.getD_cons_succ, List.getD_cons_zero]
        exact le_of_lt h
      | succ k =>
        have hk : k < (b :: t).length := by simpa using hj
        simp only [List.getD_cons_succ]
        exact argmin_getD_le (b :: t) k hk

theorem argmax_getD_ge :
    ∀ (l : List ℚ) (j : ℕ), j < l.length → l.getD j 0 ≤ l.getD (argmax l) 0
  | [] => by simp
  | [a] => by
    intro j hj
    have : j = 0 := by simpa using Nat.lt_one_iff.mp (by simpa using hj)
    subst this
    simp [argmax]
  | a :: b :: t => by
    intro j hj
    simp only [argmax]
    split
    case isTrue h =>
      cases j with
      | zero => simp
      | succ k =>
        have hk : k < (b :: t).length := by simpa using hj
        have ih := argmax_getD_ge (b :: t) k hk
        simp only [List.getD_cons_zero, List.getD_cons_succ]
        exact le_trans ih h
    case isFalse h =>
      push_neg at h
      cases j with
      | zero =>
        simp only [List.getD_cons_succ, List.getD_cons_zero]
        exact le_of_lt h
      | succ k =>
        have hk : k < (b :: t).length := by simpa using hj
        simp only [List.getD_cons_succ]
        exact argmax_getD_ge (b :: t) k hk

/-- In-bounds `getD` through `map` with unrelated defaults (helper). -/
theorem getD_map_at (f : (ℚ × ℚ) → ℚ) (pts : List (ℚ × ℚ)) (i : ℕ)
    (h : i < pts.length) :
    (pts.map f).getD i 0 = f (pts.getD i (0,0)) := by
  rw [List.getD_eq_getElem (pts.map f) 0 (by simpa using h),
      List.getD_eq_getElem pts (0,0) h, List.getElem_map]

/-- The element selected by first-argmin of the mapped scores is the unique
minimizer (helper). -/
theorem sel_min_eq (pts : List (ℚ × ℚ)) (f : (ℚ × ℚ) → ℚ) (p0 : ℚ × ℚ)
    (hmem : p0 ∈ pts) (huniq : ∀ q ∈ pts, f q ≤ f p0 → q = p0) :
    pts.getD (argmin (pts.map f)) (0,0) = p0 := by
  have hne : pts ≠ [] := List.ne_nil_of_mem hmem
  have hlt : argmin (pts.map f) < pts.length := by
    simpa using argmin_lt_length (pts.map f) (by simpa using hne)
  have hselmem : pts.getD (argmin (pts.map f)) (0,0) ∈ pts := by
    rw [List.getD_eq_getElem pts (0,0) hlt]
    exact List.getElem_mem hlt
  obtain ⟨k, hk, hkeq⟩ := List.getElem_of_mem hmem
  have h1 : (pts.map f).getD (argmin (pts.map f)) 0 ≤ (pts.map f).getD k 0 :=
    argmin_getD_le (pts.map f) k (by simpa using hk)
  rw [getD_map_at f pts _ hlt, getD_map_at f pts k hk] at h1
  have hk2 : pts.getD k (0,0) = p0 := by
    rw [List.getD_eq_getElem pts (0,0) hk, hkeq]
  rw [hk2] at h1
  exact huniq _ hselmem h1

/-- The element selected by first-argmax of the mapped scores is the unique
maximizer (helper). -/
theorem sel_max_eq (pts : List (ℚ × ℚ)) (f : (ℚ × ℚ) → ℚ) (p0 : ℚ × ℚ)
    (hmem : p0 ∈ pts) (huniq : ∀ q ∈ pts, f p0 ≤ f q → q = p0) :
    pts.getD (argmax (pts.map f)) (0,0) = p0 := by
  have hne : pts ≠ [] := List.ne_nil_of_mem hmem
  have hlt : argmax (pts.map f) < pts.length := by
    simpa using argmax_lt_length (pts.map f) (by simpa using hne)
  have hselmem : pts.getD (argmax (pts.map f)) (0,0) ∈ pts := by
    rw [List.getD_eq_getElem pts (0,0) hlt]
    exact List.getElem_mem hlt
  obtain ⟨k, hk, hkeq⟩ := List.getElem_of_mem hmem
  have h1 : (pts.map f).getD k 0 ≤ (pts.map f).getD (argmax (pts.map f)) 0 :=
    argmax_getD_ge (pts.map f) k (by simpa using hk)
  rw [getD_map_at f pts _ hlt, getD_map_at f pts k hk] at h1
  have hk2 : pts.getD k (0,0) = p0 := by
    rw [List.getD_eq_getElem pts (0,0) hk, hkeq]
  rw [hk2] at h1
  exact huniq _ hselmem h1

/-- XTalk-analysis.py, `order_points` (lines 5-15): order four points as
[top-left, top-right, bottom-right, bottom-left] by first-argmin/argmax of
the coordinate sums x + y and the np.diff coordinate differences y − x. -/
def order_points (pts : List (ℚ × ℚ)) : List (ℚ × ℚ) :=
  [pts.getD (argmin (pts.map fun p => p.1 + p.2)) (0,0),
   pts.getD (argmin (pts.map fun p => p.2 - p.1)) (0,0),
   pts.getD (argmax (pts.map fun p => p.1 + p.2)) (0,0),
   pts.getD (argmax (pts.map fun p => p.2 - p.1)) (0,0)]

/-- C10: when the coordinate sums have a unique minimum and maximum and the
coordinate differences have a unique minimum and maximum, `order_points`
returns the same ordered quadruple for any permutation of the four input
points. -/
theorem order_points_perm_invariant (l1 l2 : List (ℚ × ℚ))
    (hperm : l1.Perm l2) (hlen : l1.length = 4)
    (hminsum : ∃ p ∈ l1, (∀ q ∈ l1, p.1 + p.2 ≤ q.1 + q.2) ∧
      ∀ q ∈ l1, q.1 + q.2 ≤ p.1 + p.2 → q = p)
    (hmaxsum : ∃ p ∈ l1, (∀ q ∈ l1, q.1 + q.2 ≤ p.1 + p.2) ∧
      ∀ q ∈ l1, p.1 + p.2 ≤ q.1 + q.2 → q = p)
    (hmindiff : ∃ p ∈ l1, (∀ q ∈ l1, p.2 - p.1 ≤ q.2 - q.1) ∧
      ∀ q ∈ l1, q.2 - q.1 ≤ p.2 - p.1 → q = p)
    (hmaxdiff : ∃ p ∈ l1, (∀ q ∈ l1, q.2 - q.1 ≤ p.2 - p.1) ∧
      ∀ q ∈ l1, p.2 - p.1 ≤ q.2 - q.1 → q = p) :
    order_points l1 = order_points l2 := by
  obtain ⟨pa, hpaM, hpaMin, hpaU⟩ := hminsum
  obtain ⟨pb, hpbM, hpbMax, hpbU⟩ := hmaxsum
  obtain ⟨pc, hpcM, hpcMin, hpcU⟩ := hmindiff
  obtain ⟨pd, hpdM, hpdMax, hpdU⟩ := hmaxdiff
  unfold order_points
  rw [sel_min_eq l1 _ pa hpaM hpaU,
      sel_min_eq l2 _ pa (hperm.mem_iff.mp hpaM)
        (fun q hq => hpaU q (hperm.mem_iff.mpr hq)),
      sel_min_eq l1 _ pc hpcM hpcU,
      sel_min_eq l2 _ pc (hperm.mem_iff.mp hpcM)
        (fun q hq => hpcU q (hperm.mem_iff.mpr hq)),
      sel_max_eq l1 _ pb hpbM hpbU,
      sel_max_eq l2 _ pb (hperm.mem_iff.mp hpbM)
        (fun q hq => hpbU q (hperm.mem_iff.mpr hq)),
      sel_max_eq l1 _ pd hpdM hpdU,
      sel_max_eq l2 _ pd (hperm.mem_iff.mp hpdM)
        (fun q hq => hpdU q (hperm.mem_iff.mpr hq))]

/-- C10 witness: a concrete square traversed in two different orders. -/
theorem order_points_perm_invariant_witness :
    ([((0:ℚ),(0:ℚ)), (2,0), (2,2), (0,2)] : List (ℚ × ℚ)).length = 4 ∧
    order_points [((0:ℚ),(0:ℚ)), (2,0), (2,2), (0,2)] =
      order_points [((0:ℚ),(2:ℚ)), (2,2), (2,0), (0,0)] := by
  refine ⟨rfl, order_points_perm_invariant _ _ ?_ rfl ?_ ?_ ?_ ?_⟩
  · exact (List.reverse_perm _).symm
  · exact ⟨(0,0), by norm_num, fun q hq => by fin_cases hq <;> norm_num,
      fun q hq => by fin_cases hq <;> norm_num⟩
  · exact ⟨(2,2), by norm_num, fun q hq => by fin_cases hq <;> norm_num,
      fun q hq => by fin_cases hq <;> norm_num⟩
  · exact ⟨(2,0), by norm_num, fun q hq => by fin_cases hq <;> norm_num,
      fun q hq => by fin_cases hq <;> norm_num⟩
  · exact ⟨(0,2), by norm_num, fun q hq => by fin_cases hq <;> norm_num,
      fun q hq => by fin_cases hq <;> norm_num⟩

/-- 3×3 rational matrix, rows (m00 m01 m02), (m10 m11 m12), (m20 m21 m22). -/
structure Mat3 where
  m00 : ℚ
  m01 : ℚ
  m02 : ℚ
  m10 : ℚ
  m11 : ℚ
  m12 : ℚ
  m20 : ℚ
  m21 : ℚ
  m22 : ℚ

def Mat3.mul (A B : Mat3) : Mat3 :=
  ⟨A.m00 * B.m00 + A.m01 * B.m10 + A.m02 * B.m20,
   A.m00 * B.m01 + A.m01 * B.m11 + A.m02 * B.m21,
   A.m00 * B.m02 + A.m01 * B.m12 + A.m02 * B.m22,
   A.m10 * B.m00 + A.m11 * B.m10 + A.m12 * B.m20,
   A.m10 * B.m01 + A.m11 * B.m11 + A.m12 * B.m21,
   A.m10 * B.m02 + A.m11 * B.m12 + A.m12 * B.m22,
   A.m20 * B.m00 + A.m21 * B.m10 + A.m22 * B.m20,
   A.m20 * B.m01 + A.m21 * B.m11 + A.m22 * B.m21,
   A.m20 * B.m02 + A.m21 * B.m12 + A.m22 * B.m22⟩

/-- Adjugate; proportional to the inverse, which is all a projective
application needs. -/
def Mat3.adj (A : Mat3) : Mat3 :=
  ⟨A.m11 * A.m22 - A.m12 * A.m21, -(A.m01 * A.m22 - A.m02 * A.m21),
   A.m01 * A.m12 - A.m02 * A.m11,
   -(A.m10 * A.m22 - A.m12 * A.m20), A.m00 * A.m22 - A.m02 * A.m20,
   -(A.m00 * A.m12 - A.m02 * A.m10),
   A.m10 * A.m21 - A.m11 * A.m20, -(A.m00 * A.m21 - A.m01 * A.m20),
   A.m00 * A.m11 - A.m01 * A.m10⟩

/-- Apply a homography to a point (projective division). -/
def Mat3.app (A : Mat3) (x y : ℚ) : ℚ × ℚ :=
  ((A.m00 * x + A.m01 * y + A.m02) / (A.m20 * x + A.m21 * y + A.m22),
   (A.m10 * x + A.m11 * y + A.m12) / (A.m20 * x + A.m21 * y + A.m22))

/-- Homography sending the unit square corners (0,0),(1,0),(1,1),(0,1) to
q0,q1,q2,q3 (standard projective quad mapping; building block of the
cv2.getPerspectiveTransform model). -/
def squareToQuad (q0 q1 q2 q3 : ℚ × ℚ) : Mat3 :=
  let sx := q0.1 - q1.1 + q2.1 - q3.1
  let sy := q0.2 - q1.2 + q2.2 - q3.2
  if sx = 0 ∧ sy = 0 then
    ⟨q1.1 - q0.1, q3.1 - q0.1, q0.1,
     q1.2 - q0.2, q3.2 - q0.2, q0.2,
     0, 0, 1⟩
  else
    let dx1 := q1.1 - q2.1
    let dx2 := q3.1 - q2.1
    let dy1 := q1.2 - q2.2
    let dy2 := q3.2 - q2.2
    let den := dx1 * dy2 - dy1 * dx2
    let g := (sx * dy2 - sy * dx2) / den
    let hcoef := (dx1 * sy - dy1 * sx) / den
    ⟨q1.1 - q0.1 + g * q1.1, q3.1 - q0.1 + hcoef * q3.1, q0.1,
     q1.2 - q0.2 + g * q1.2, q3.2 - q0.2 + hcoef * q3.2, q0.2,
     g, hcoef, 1⟩

/-- Model of cv2.getPerspectiveTransform: a homography taking the four src
points to the four dst points, composed from two unit-square homographies.
OpenCV additionally rescales so that m22 = 1; `Mat3.app` is invariant under
that rescaling. -/
def getPerspectiveTransform (src dst : List (ℚ × ℚ)) : Mat3 :=
  (squareToQuad (dst.getD 0 (0,0)) (dst.getD 1 (0,0)) (dst.getD 2 (0,0))
    (dst.getD 3 (0,0))).mul
    (squareToQuad (src.getD 0 (0,0)) (src.getD 1 (0,0)) (src.getD 2 (0,0))
      (src.getD 3 (0,0))).adj

/-- cv2 border policies used by the scripts: BORDER_CONSTANT (the
warpPerspective default, fill value 0) and BORDER_REPLICATE. -/
inductive BorderMode
  | constant
  | replicate
deriving DecidableEq

/-- Width of a row-major image: length of its first row. -/
def imgW (img : List (List ℚ)) : ℕ := (img.getD 0 []).length

/-- Clamp an integer coordinate into [0, n). -/
def clampIdx (n : ℕ) (i : ℤ) : ℕ := (min (max i 0) ((n : ℤ) - 1)).toNat

/-- Extended pixel access under a border policy: replicate clamps to the
nearest valid pixel, constant yields 0 outside the image. -/
def pixelAt (mode : BorderMode) (img : List (List ℚ)) (y x : ℤ) : ℚ :=
  match mode with
  | BorderMode.replicate =>
      (img.getD (clampIdx img.length y) []).getD (clampIdx (imgW img) x) 0
  | BorderMode.constant =>
      if 0 ≤ y ∧ y < (img.length : ℤ) ∧ 0 ≤ x ∧ x < (imgW img : ℤ) then
        (img.getD y.toNat []).getD x.toNat 0
      else 0

/-- Bilinear sampling (cv2.INTER_LINEAR) at a rational source coordinate;
each of the four taps is read through the border policy. -/
def bilinearSample (mode : BorderMode) (img : List (List ℚ))
    (sx sy : ℚ) : ℚ :=
  let x0 := Int.floor sx
  let y0 := Int.floor sy
  let fx := sx - (x0 : ℚ)
  let fy := sy - (y0 : ℚ)
  (1 - fy) * ((1 - fx) * pixelAt mode img y0 x0 +
      fx * pixelAt mode img y0 (x0 + 1)) +
    fy * ((1 - fx) * pixelAt mode img (y0 + 1) x0 +
      fx * pixelAt mode img (y0 + 1) (x0 + 1))

/-- Model of cv2.warpPerspective: each destination pixel samples the source
at the inverse-homography image of its coordinates (single channel; the
3-channel code path applies this to each channel). -/
def warpPerspective (img : List (List ℚ)) (M : Mat3) (dsize : ℕ × ℕ)
    (mode : BorderMode) : List (List ℚ) :=
  (List.range dsize.2).map fun y : ℕ =>
    (List.range dsize.1).map fun x : ℕ =>
      bilinearSample mode img (M.adj.app (x : ℚ) (y : ℚ)).1
        (M.adj.app (x : ℚ) (y : ℚ)).2

/-- int(np.linalg.norm v): floor of the Euclidean norm, computed exactly as
the integer square root of the floor of the squared norm. -/
def normInt (v : ℚ × ℚ) : ℕ :=
  Nat.sqrt (Int.floor (v.1 ^ 2 + v.2 ^ 2)).toNat

/-- XTalk-analysis.py, `four_point_transform` (lines 17-42): order the four
corners, size the output by the longer opposing edge lengths, and warp with
cv2.warpPerspective. The call passes no borderMode, so OpenCV's default
BORDER_CONSTANT (zero fill) applies. -/
def four_point_transform (image : List (List ℚ)) (pts : List (ℚ × ℚ)) :
    List (List ℚ) :=
  let rect := order_points pts
  let tl := rect.getD 0 (0,0)
  let tr := rect.getD 1 (0,0)
  let br := rect.getD 2 (0,0)
  let bl := rect.getD 3 (0,0)
  let maxWidth := max (normInt (br.1 - bl.1, br.2 - bl.2))
    (normInt (tr.1 - tl.1, tr.2 - tl.2))
  let maxHeight := max (normInt (tr.1 - br.1, tr.2 - br.2))
    (normInt (tl.1 - bl.1, tl.2 - bl.2))
  let dst : List (ℚ × ℚ) := [(0, 0), ((maxWidth : ℚ) - 1, 0),
    ((maxWidth : ℚ) - 1, (maxHeight : ℚ) - 1), (0, (maxHeight : ℚ) - 1)]
  warpPerspective image (getPerspectiveTransform rect dst)
    (maxWidth, maxHeight) BorderMode.constant

/-- 2×3 affine matrix [[a,b,c],[d,e,f]]. -/
structure Affine2 where
  a : ℚ
  b : ℚ
  c : ℚ
  d : ℚ
  e : ℚ
  f : ℚ

/-- Inverse of a 2×3 affine map (cv2.warpAffine inverts the forward map it
is given before sampling). -/
def invertAffine (M : Affine2) : Affine2 :=
  let det := M.a * M.e - M.b * M.d
  ⟨M.e / det, -M.b / det, (M.b * M.f - M.c * M.e) / det,
   -M.d / det, M.a / det, (M.c * M.d - M.f * M.a) / det⟩

/-- Model of cv2.warpAffine with INTER_LINEAR and the given border mode. -/
def warpAffine (img : List (List ℚ)) (M : Affine2) (dsize : ℕ × ℕ)
    (mode : BorderMode) : List (List ℚ) :=
  (List.range dsize.2).map fun y : ℕ =>
    (List.range dsize.1).map fun x : ℕ =>
      bilinearSample mode img
        ((invertAffine M).a * (x : ℚ) + (invertAffine M).b * (y : ℚ) +
          (invertAffine M).c)
        ((invertAffine M).d * (x : ℚ) + (invertAffine M).e * (y : ℚ) +
          (invertAffine M).f)

/-- The two warpAffine call sites of correctDisp.py (lines 49 and 149) pass
borderMode = cv2.BORDER_REPLICATE. -/
def warpAffineCall (img : List (List ℚ)) (M : Affine2) (dsize : ℕ × ℕ) :
    List (List ℚ) :=
  warpAffine img M dsize BorderMode.replicate

/-- In-bounds `getD` on a replicated list (helper). -/
theorem getD_replicate {α : Type} (n : ℕ) (a d : α) (i : ℕ) (h : i < n) :
    (List.replicate n a).getD i d = a := by
  rw [List.getD_eq_getElem _ _ (by simpa using h), List.getElem_replicate]

/-- Clamping lands inside [0, n) when n is positive (helper). -/
theorem clampIdx_lt (n : ℕ) (hn : 0 < n) (i : ℤ) : clampIdx n i < n := by
  unfold clampIdx
  have h1 : min (max i 0) ((n : ℤ) - 1) ≤ (n : ℤ) - 1 := min_le_right _ _
  have h2 : (0 : ℤ) ≤ min (max i 0) ((n : ℤ) - 1) :=
    le_min (le_max_right i 0) (by omega)
  omega

/-- Replicate-border access on a constant image always yields the constant
(helper). -/
theorem pixelAt_replicate_const (v : ℚ) (h w : ℕ) (hh : 0 < h) (hw : 0 < w)
    (y x : ℤ) :
    pixelAt BorderMode.replicate (List.replicate h (List.replicate w v))
      y x = v := by
  have hl : (List.replicate h (List.replicate w v)).length = h := by simp
  have hiw : imgW (List.replicate h (List.replicate w v)) = w := by
    unfold imgW
    rw [getD_replicate h _ [] 0 hh]
    simp
  simp only [pixelAt, hl, hiw]
  rw [getD_replicate h (List.replicate w v) [] _ (clampIdx_lt h hh y),
      getD_replicate w v 0 _ (clampIdx_lt w hw x)]

/-- Bilinear sampling of a constant image under replicate borders yields
the constant at every source coordinate (helper). -/
theorem bilinearSample_replicate_const (v : ℚ) (h w : ℕ) (hh : 0 < h)
    (hw : 0 < w) (sx sy : ℚ) :
    bilinearSample BorderMode.replicate
      (List.replicate h (List.replicate w v)) sx sy = v := by
  unfold bilinearSample
  simp only [pixelAt_replicate_const v h w hh hw]
  ring

/-- The pipeline's replicate-border affine warp maps a constant image to
the constant image of the destination size (helper). -/
theorem warpAffineCall_const (v : ℚ) (h w dw dh : ℕ) (M : Affine2)
    (hh : 0 < h) (hw : 0 < w) :
    warpAffineCall (List.replicate h (List.replicate w v)) M (dw, dh) =
      List.replicate dh (List.replicate dw v) := by
  unfold warpAffineCall warpAffine
  have hin : ∀ y : ℕ, (List.range dw).map (fun x : ℕ =>
      bilinearSample BorderMode.replicate
        (List.replicate h (List.replicate w v))
        ((invertAffine M).a * x + (invertAffine M).b * y +
          (invertAffine M).c)
        ((invertAffine M).d * x + (invertAffine M).e * y +
          (invertAffine M).f)) = List.replicate dw v := by
    intro y
    rw [List.map_congr_left
      (fun x _ => bilinearSample_replicate_const v h w hh hw _ _)]
    rw [List.map_const', List.length_range]
  rw [List.map_congr_left (fun y _ => hin y)]
  rw [List.map_const', List.length_range]

/-- C9 (amended): the two warpAffine calls of the pipeline use
BORDER_REPLICATE — warping any constant image reproduces the constant
everywhere, never a zero fill — and out-of-bounds access under
BORDER_CONSTANT yields 0; the four-point perspective unwarp invokes
warpPerspective with that default BORDER_CONSTANT, so its out-of-bounds
destination pixels are zero-filled, not edge-replicated. -/
theorem warp_border_policy :
    (∀ (v : ℚ) (h w dw dh : ℕ) (M : Affine2), 0 < h → 0 < w →
      warpAffineCall (List.replicate h (List.replicate w v)) M (dw, dh) =
        List.replicate dh (List.replicate dw v)) ∧
    (∀ (img : List (List ℚ)) (y x : ℤ),
      ¬(0 ≤ y ∧ y < (img.length : ℤ) ∧ 0 ≤ x ∧ x < (imgW img : ℤ)) →
      pixelAt BorderMode.constant img y x = 0) ∧
    (∀ (img : List (List ℚ)) (pts : List (ℚ × ℚ)),
      ∃ (M : Mat3) (dsize : ℕ × ℕ),
        four_point_transform img pts =
          warpPerspective img M dsize BorderMode.constant) := by
  refine ⟨fun v h w dw dh M hh hw => warpAffineCall_const v h w dw dh M hh hw,
    fun img y x hcond => ?_, fun img pts => ⟨_, _, rfl⟩⟩
  simp only [pixelAt]
  rw [if_neg hcond]

/-- C9 witness: a 1×1 constant image warped with replicate borders to a
2×2 output stays constant. -/
theorem warp_border_policy_witness :
    (0 < 1 ∧ 0 < 1) ∧
    warpAffineCall (List.replicate 1 (List.replicate 1 (5:ℚ)))
        ⟨1, 0, 0, 0, 1, 0⟩ (2, 2) =
      List.replicate 2 (List.replicate 2 (5:ℚ)) :=
  ⟨⟨Nat.one_pos, Nat.one_pos⟩,
   warp_border_policy.1 5 1 1 2 2 ⟨1, 0, 0, 0, 1, 0⟩ Nat.one_pos
     Nat.one_pos⟩

set_option maxHeartbeats 1000000 in
/-- C9 counterexample: unwarping an all-ones 2×2 image through the
four-point transform of the square (0,0),(2,0),(2,2),(0,2) zero-fills the
destination pixel (1,1) (its inverse-mapped source coordinate (2,2) is out
of bounds), although every source pixel is 1 — edge replication would give
1, so the four-point path does not edge-replicate. -/
theorem four_point_zero_fill_example :
    ((four_point_transform [[1,1],[1,1]]
        [((0:ℚ),(0:ℚ)),(2,0),(2,2),(0,2)]).getD 1 []).getD 1 0 = 0 ∧
    (∀ row ∈ [[(1:ℚ),1],[1,1]], ∀ q ∈ row, q = 1) ∧ (0:ℚ) ≠ 1 := by
  refine ⟨?_, by simp, by norm_num⟩
  have hrect : order_points [((0:ℚ),(0:ℚ)),(2,0),(2,2),(0,2)] =
      [((0:ℚ),(0:ℚ)),(2,0),(2,2),(0,2)] := by
    norm_num [order_points, argmin, argmax, List.getD_cons_zero,
      List.getD_cons_succ]
  have hq : four_point_transform [[1,1],[1,1]]
      [((0:ℚ),(0:ℚ)),(2,0),(2,2),(0,2)] =
      warpPerspective [[1,1],[1,1]]
        (getPerspectiveTransform [((0:ℚ),(0:ℚ)),(2,0),(2,2),(0,2)]
          [((0:ℚ),(0:ℚ)),(1,0),(1,1),(0,1)]) (2,2) BorderMode.constant := by
    unfold four_point_transform
    rw [hrect]
    norm_num [normInt, List.getD_cons_zero, List.getD_cons_succ,
      show Int.toNat 4 = 4 from rfl]
  have hM : getPerspectiveTransform [((0:ℚ),(0:ℚ)),(2,0),(2,2),(0,2)]
      [((0:ℚ),(0:ℚ)),(1,0),(1,1),(0,1)] =
      (⟨2,0,0,0,2,0,0,0,4⟩ : Mat3) := by
    norm_num [getPerspectiveTransform, squareToQuad, Mat3.mul, Mat3.adj,
      List.getD_cons_zero, List.getD_cons_succ]
  rw [hq, hM]
  have hrange : List.range 2 = [0, 1] := rfl
  have happ : (⟨2,0,0,0,2,0,0,0,4⟩ : Mat3).adj.app (((1:ℕ)):ℚ) (((1:ℕ)):ℚ)
      = ((2:ℚ), (2:ℚ)) := by
    norm_num [Mat3.adj, Mat3.app]
  simp only [warpPerspective, hrange, List.map_cons, List.map_nil,
    List.getD_cons_succ, List.getD_cons_zero, happ]
  norm_num [bilinearSample, pixelAt, imgW]
